import Mathlib

/-!
Verification development for `fs-dedupe` (src/index.ts): a tool that scans a
directory tree for files matching glob patterns, groups byte-identical files
by content digest (sha1), and replaces redundant copies with relative
symbolic links to the first-discovered member of each group.

Embedding conventions:
* A filesystem path is a list of segments: the Node string "x/y/a.txt" is
  `["x", "y", "a.txt"]` and the current directory "." is `[]`.
* File contents are byte lists (`List Nat`); the sha1 digest function is an
  abstract parameter `hash : Content → Digest` since the grouping logic only
  compares digests for equality.
* The filesystem is an association list from path to entry, where an entry is
  a regular file (with its content) or a symbolic link (with its target,
  interpreted relative to the containing directory as Node does).
* Failure of `fs.unlinkAsync` / `fs.symlinkAsync` is modelled by a fault
  schedule threaded through the state: each unlink/symlink operation consumes
  one bit of the schedule and fails when the bit is `true`, in addition to the
  intrinsic failure modes (unlink of a missing path, symlink over an existing
  path).
* The `Promise.all` fan-outs of the source are serialized: each
  `detectDuplicate` task mutates the shared map synchronously once its file
  read completes, so an execution of the grouping pass is a sequential fold
  over the files in read-completion order — an arbitrary permutation of the
  discovery list that the runtime does not guarantee to equal it
  (`populateResult` quantifies over these completion orders; claims whose
  conclusions are insertion-order-invariant are stated over a single order).
  The `createSymlinks` fan-out over groups is likewise folded left to right;
  its success-state conclusions are interleaving-invariant on pairwise
  distinct paths. The `for..of await` loop inside
  `createSymlinksForDuplicate` is sequential in the source itself.
-/

set_option autoImplicit false

namespace FsDedupe

/-! ### Paths (Node `path` module on segment lists) -/

abbrev Seg := String
abbrev Path := List Seg
abbrev Content := List Nat
abbrev Digest := String

def pathToString (p : Path) : String := String.intercalate "/" p

/-- Node `path.dirname`: all but the last segment (`[]` plays the role of "."). -/
def dirname (p : Path) : Path := p.dropLast

/-- Node `path.relative(from, to)` on segment lists: drop the common prefix,
then one ".." per remaining `from` segment followed by the remaining `to`
segments. -/
def relSegs : Path → Path → Path
  | [], ts => ts
  | _ :: fs, [] => List.replicate (fs.length + 1) ".."
  | f :: fs, t :: ts =>
    if f = t then relSegs fs ts
    else List.replicate (fs.length + 1) ".." ++ (t :: ts)

/-- Resolution of a (possibly ".."-containing) path against a directory,
processing segments left to right with ".." popping the last segment, as the
kernel resolves a symlink target against the link's directory. -/
def normStack (acc : Path) : Path → Path
  | [] => acc
  | s :: rest =>
    if s = ".." then normStack acc.dropLast rest else normStack (acc ++ [s]) rest

/-! ### Filesystem model -/

/-- A directory entry: a regular file with its content, or a symbolic link
with its (relative) target. -/
inductive Entry where
  | file (content : Content)
  | link (target : Path)
deriving DecidableEq

abbrev FS := List (Path × Entry)

def lookupFS : FS → Path → Option Entry
  | [], _ => none
  | e :: rest, p => if e.1 = p then some e.2 else lookupFS rest p

def removeFS : FS → Path → FS
  | [], _ => []
  | e :: rest, p => if e.1 = p then removeFS rest p else e :: removeFS rest p

/-- Content of the regular file at `p`, if any. -/
def contentAt (fs : FS) (p : Path) : Option Content :=
  match lookupFS fs p with
  | some (.file c) => some c
  | _ => none

/-- OS-level read at `p`: a regular file yields its content, a symbolic link
is followed (one hop) by resolving its target against the link's directory. -/
def readResolved (fs : FS) (p : Path) : Option Content :=
  match lookupFS fs p with
  | some (.file c) => some c
  | some (.link t) => contentAt fs (normStack (dirname p) t)
  | none => none

/-- Embeds `DiscoveredFile.sha1`: read the file's bytes and hash them (`none` when
the read fails, which aborts the run in the source). The memo cache of the
source is irrelevant here since each handle is hashed exactly once. -/
def sha1 (hash : Content → Digest) (fs : FS) (p : Path) : Option Digest :=
  (readResolved fs p).map hash

/-! ### Scanner -/

/-- Shell-glob match of a pattern against a filename: `*` matches any
(possibly empty) run of characters (some suffix of the remaining string is
matched by the rest of the pattern), `?` any single character, anything else
itself. -/
def globMatch : List Char → List Char → Bool
  | [], s => s.isEmpty
  | '*' :: ps, s => s.tails.any (fun t => globMatch ps t)
  | p :: ps, s =>
    match s with
    | [] => false
    | c :: cs => (p == c || p == '?') && globMatch ps cs

/-- The `Scanner` constructor: an empty pattern list defaults to `["*"]`. -/
def effectivePatterns (patterns : List String) : List String :=
  if patterns = [] then ["*"] else patterns

/-- Embeds `Scanner.scanFiles`: it builds the glob filter `**/+(p1|p2|...)`: a file
matches when its filename (last path segment) satisfies any one of the
effective patterns; the `**/` prefix places no constraint on the directory. -/
def scanMatches (patterns : List String) (p : Path) : Bool :=
  match p.getLast? with
  | none => false
  | some name => (effectivePatterns patterns).any (fun pat => globMatch pat.data name.data)

/-! ### Duplicate index (`Main.duplicatesMap`) -/

abbrev DupMap := List (Digest × List Path)

def lookupGroup : DupMap → Digest → Option (List Path)
  | [], _ => none
  | g :: rest, d => if g.1 = d then some g.2 else lookupGroup rest d

/-- The map update of `detectDuplicate`: push `p` onto the group keyed by `d`,
creating the group (in insertion order, i.e. appended) on first occurrence. -/
def insertDup : DupMap → Digest → Path → DupMap
  | [], d, p => [(d, [p])]
  | g :: rest, d, p =>
    if g.1 = d then (g.1, g.2 ++ [p]) :: rest else g :: insertDup rest d p

/-- Embeds `Main.detectDuplicate`: hash the file and insert it into the digest map;
a read failure propagates. -/
def detectDuplicate (hash : Content → Digest) (fs : FS) (m : DupMap) (p : Path) :
    Except String DupMap :=
  match sha1 hash fs p with
  | none => .error ("EIO: cannot read " ++ pathToString p)
  | some d => .ok (insertDup m d p)

/-- Embeds `Main.populateDuplicates`: fold `detectDuplicate` over the files
in a given processing order. The source dispatches one task per file with
`Promise.all` and each task pushes into the map only after its read
completes, so the order of this fold is the read-completion order of that
execution (see `populateResult`), not necessarily the discovery order. -/
def populateDuplicates (hash : Content → Digest) (fs : FS) :
    List Path → DupMap → Except String DupMap
  | [], m => .ok m
  | p :: rest, m =>
    match detectDuplicate hash fs m p with
    | .error e => .error e
    | .ok m' => populateDuplicates hash fs rest m'

/-- Embeds `Main.removeUnique`: delete every group of size exactly 1 from the map. -/
def removeUnique : DupMap → DupMap
  | [] => []
  | g :: rest => if g.2.length = 1 then removeUnique rest else g :: removeUnique rest

/-! ### Mutating filesystem operations with fault injection -/

/-- Filesystem state together with the remaining fault schedule; each
unlink/symlink consumes one bit (`true` = that operation fails, an exhausted
schedule means no further injected faults). -/
structure St where
  fs : FS
  faults : List Bool
deriving DecidableEq

def popFault (s : St) : Bool × St :=
  (s.faults.headD false, ⟨s.fs, s.faults.tail⟩)

/-- Embeds `fs.unlinkAsync`: fails on an injected fault or a missing path, otherwise
removes the entry. -/
def unlinkOp (p : Path) (s : St) : Except String Unit × St :=
  let fb := popFault s
  if fb.1 then (.error "EIO: unlink", fb.2)
  else
    match lookupFS fb.2.fs p with
    | none => (.error "ENOENT: unlink", fb.2)
    | some _ => (.ok (), ⟨removeFS fb.2.fs p, fb.2.faults⟩)

/-- Embeds `fs.symlinkAsync(target, p, 'file')`: fails on an injected fault or an
existing path, otherwise creates the link entry. -/
def symlinkOp (target : Path) (p : Path) (s : St) : Except String Unit × St :=
  let fb := popFault s
  if fb.1 then (.error "EIO: symlink", fb.2)
  else
    match lookupFS fb.2.fs p with
    | some _ => (.error "EEXIST: symlink", fb.2)
    | none => (.ok (), ⟨(p, .link target) :: fb.2.fs, fb.2.faults⟩)

/-- The loop body of `Main.createSymlinksForDuplicate`: for each copy in group
order, unlink it, then create a symlink to the source relative to the copy's
directory; the first failure aborts the remaining copies of the group. -/
def linkDupes (src : Path) : List Path → St → Except String Unit × St
  | [], s => (.ok (), s)
  | d :: rest, s =>
    match unlinkOp d s with
    | (.error e, s') => (.error e, s')
    | (.ok _, s') =>
      match symlinkOp (relSegs (dirname d) src) d s' with
      | (.error e, s'') => (.error e, s'')
      | (.ok _, s'') => linkDupes src rest s''

/-- Embeds `Main.createSymlinksForDuplicate`: destructure `[src, ...dupes]` and
replace each dupe. -/
def createSymlinksForDuplicate (duplicates : List Path) (s : St) :
    Except String Unit × St :=
  match duplicates with
  | [] => (.ok (), s)
  | src :: dupes => linkDupes src dupes s

/-- Embeds `Main.createSymlinks` over the map's groups (the source's `Promise.all`
modelled as left-to-right processing in map order). -/
def createSymlinks : List (List Path) → St → Except String Unit × St
  | [], s => (.ok (), s)
  | g :: rest, s =>
    match createSymlinksForDuplicate g s with
    | (.error e, s') => (.error e, s')
    | (.ok _, s') => createSymlinks rest s'

/-! ### Reporting -/

/-- Node `console.log(a, b, ...)` joins its arguments with single spaces. -/
def consoleLog (args : List String) : String := String.intercalate " " args

/-- One line of `Main.printDuplicates`:
`console.log(dupe.path, ' ->', path.relative(path.dirname(dupe.path), src.path))`.
Note the argument `' ->'` carries a leading space of its own. -/
def dupLine (src dupe : Path) : String :=
  consoleLog [pathToString dupe, " ->", pathToString (relSegs (dirname dupe) src)]

/-- Embeds `Main.printDuplicates`: one line per non-canonical member of each group. -/
def printDuplicates (m : DupMap) : List String :=
  (m.map (fun g =>
    match g.2 with
    | [] => []
    | src :: dupes => dupes.map (dupLine src))).flatten

/-- Result of `Main.run`: the propagated error (if any), the console lines in
order, and the final filesystem state. -/
structure RunOut where
  err : Option String
  lines : List String
  state : St
deriving DecidableEq

/-- Embeds `Main.run` on an already-scanned file list (CLI parsing, `process.chdir`
and glob traversal are external collaborators; `files` is the scanner's
output in discovery order). -/
def run (hash : Content → Digest) (dryRun : Bool) (files : List Path) (s : St) :
    RunOut :=
  let l0 := ["Scanning...",
             "Matched " ++ toString files.length ++ " files",
             "Looking for duplicates..."]
  match populateDuplicates hash s.fs files [] with
  | .error e => ⟨some e, l0, s⟩
  | .ok m =>
    let uniqueFiles := m.length
    let m2 := removeUnique m
    let duplicatedSourceFiles := m2.length
    let copies : Int :=
      (files.length : Int) - (uniqueFiles : Int) - (duplicatedSourceFiles : Int)
    let l1 := l0 ++ ["Found " ++ toString uniqueFiles ++ " unique files",
                     "Found " ++ toString duplicatedSourceFiles ++ " files with " ++
                       toString copies ++ " copies"]
    if dryRun then ⟨none, l1 ++ printDuplicates m2, s⟩
    else if duplicatedSourceFiles = 0 then
      ⟨none, l1 ++ ["Nothing to dedupe ¯\\_(ツ)_/¯"], s⟩
    else
      match createSymlinks (m2.map Prod.snd) s with
      | (.ok _, s') => ⟨none, l1 ++ ["Creating symlinks...", "Deduplication finished"], s'⟩
      | (.error e, s') => ⟨some e, l1 ++ ["Creating symlinks..."], s'⟩

/-! ### Path lemmas: resolving a `relSegs` target against the link's directory
recovers the source path -/

/-- Drop the last `k` elements. -/
def dropLastN : Nat → Path → Path
  | 0, l => l
  | k + 1, l => dropLastN k l.dropLast

theorem dropLastN_append (c : Path) (f : Path) : dropLastN f.length (c ++ f) = c := by
  induction f using List.reverseRecOn with
  | nil => simp [dropLastN]
  | append_singleton l a ih =>
    have : c ++ (l ++ [a]) = (c ++ l) ++ [a] := by simp
    simp only [List.length_append, List.length_singleton, this]
    show dropLastN l.length ((c ++ l ++ [a]).dropLast) = c
    rw [List.dropLast_concat]
    exact ih

theorem relSegs_shape (fs ts : Path) : ∃ k rest c f,
    relSegs fs ts = List.replicate k ".." ++ rest ∧
    fs = c ++ f ∧ f.length = k ∧ c ++ rest = ts ∧ ∀ s ∈ rest, s ∈ ts := by
  induction fs generalizing ts with
  | nil => exact ⟨0, ts, [], [], by simp [relSegs]⟩
  | cons hd tl ih =>
    cases ts with
    | nil =>
      refine ⟨tl.length + 1, [], [], hd :: tl, ?_, rfl, by simp, rfl, by simp⟩
      simp [relSegs]
    | cons t ts' =>
      by_cases h : hd = t
      · subst h
        obtain ⟨k, rest, c, f, h1, h2, h3, h4, h5⟩ := ih ts'
        refine ⟨k, rest, hd :: c, f, ?_, by simp [h2], h3, by simp [h4], ?_⟩
        · simpa [relSegs] using h1
        · exact fun s hs => List.mem_cons_of_mem _ (h5 s hs)
      · refine ⟨tl.length + 1, t :: ts', [], hd :: tl, ?_, rfl, by simp, rfl, by simp⟩
        simp [relSegs, h]

theorem normStack_replicate (k : Nat) (acc rest : Path) :
    normStack acc (List.replicate k ".." ++ rest) = normStack (dropLastN k acc) rest := by
  induction k generalizing acc with
  | zero => simp [dropLastN]
  | succ n ih =>
    simp only [List.replicate_succ, List.cons_append]
    show normStack acc (".." :: _) = _
    rw [normStack]
    simp only [if_pos rfl]
    exact ih acc.dropLast

theorem normStack_clean (rest : Path) (acc : Path) (h : ∀ s ∈ rest, s ≠ "..") :
    normStack acc rest = acc ++ rest := by
  induction rest generalizing acc with
  | nil => simp [normStack]
  | cons s r ih =>
    rw [normStack, if_neg (h s (by simp))]
    rw [ih (acc ++ [s]) (fun x hx => h x (by simp [hx]))]
    simp

/-- Resolving `path.relative(dir, src)` against `dir` yields `src`, provided
`src` contains no ".." segment. -/
theorem normStack_relSegs (fs ts : Path) (hts : ∀ s ∈ ts, s ≠ "..") :
    normStack fs (relSegs fs ts) = ts := by
  obtain ⟨k, rest, c, f, h1, h2, h3, h4, h5⟩ := relSegs_shape fs ts
  rw [h1, normStack_replicate, h2, ← h3, dropLastN_append,
      normStack_clean rest c (fun s hs => hts s (h5 s hs)), h4]

/-! ### Filesystem lookup/remove lemmas -/

theorem lookupFS_removeFS_self (fs : FS) (p : Path) :
    lookupFS (removeFS fs p) p = none := by
  induction fs with
  | nil => rfl
  | cons e rest ih =>
    by_cases h : e.1 = p
    · simpa [removeFS, h] using ih
    · simpa [removeFS, h, lookupFS] using ih

theorem lookupFS_removeFS_ne (fs : FS) (p q : Path) (h : q ≠ p) :
    lookupFS (removeFS fs p) q = lookupFS fs q := by
  induction fs with
  | nil => rfl
  | cons e rest ih =>
    by_cases he : e.1 = p
    · simp [removeFS, he, lookupFS, Ne.symm h, ih]
    · by_cases hq : e.1 = q <;> simp [removeFS, he, lookupFS, hq, h, ih]

/-! ### Duplicate-map characterization: after `populateDuplicates`, the group
keyed by digest `d` is exactly the discovery-ordered sublist of files whose
digest is `d` -/

/-- The files among `files` (in order) whose digest is `d`. -/
def filterDig (hash : Content → Digest) (fs : FS) (files : List Path) (d : Digest) :
    List Path :=
  files.filter (fun p => decide (sha1 hash fs p = some d))

/-- Extending an optional group by a (possibly empty) batch of new members. -/
def extendGroup (o : Option (List Path)) (l : List Path) : Option (List Path) :=
  match o with
  | some l0 => some (l0 ++ l)
  | none => if l = [] then none else some l

theorem extendGroup_nil (o : Option (List Path)) : extendGroup o [] = o := by
  cases o <;> simp [extendGroup]

theorem lookupGroup_insertDup (m : DupMap) (d : Digest) (p : Path) (d' : Digest) :
    lookupGroup (insertDup m d p) d' =
      if d' = d then some ((lookupGroup m d).getD [] ++ [p])
      else lookupGroup m d' := by
  induction m with
  | nil =>
    by_cases h : d' = d
    · subst h; simp [insertDup, lookupGroup]
    · simp [insertDup, lookupGroup, h, Ne.symm h]
  | cons g rest ih =>
    by_cases hg : g.1 = d
    · by_cases h' : d' = d
      · subst h'; simp [insertDup, lookupGroup, hg]
      · have hne : g.1 ≠ d' := by rw [hg]; exact fun hh => h' hh.symm
        simp [insertDup, hg, lookupGroup, hne, h', Ne.symm h']
    · by_cases hq : g.1 = d'
      · have hd : d' ≠ d := hq ▸ hg
        simp [insertDup, hg, lookupGroup, hq, hd]
      · simp [insertDup, hg, lookupGroup, hq, ih]

/-- Keys of the duplicate map. -/
def keysND (m : DupMap) : Prop := (m.map Prod.fst).Nodup

theorem mem_keys_insertDup (m : DupMap) (d : Digest) (p : Path) (x : Digest) :
    x ∈ (insertDup m d p).map Prod.fst ↔ x ∈ m.map Prod.fst ∨ x = d := by
  induction m with
  | nil => simp [insertDup]
  | cons g rest ih =>
    by_cases hg : g.1 = d
    · subst hg
      simp [insertDup]
      tauto
    · simp [insertDup, hg, ih]
      tauto

theorem keysND_insertDup (m : DupMap) (d : Digest) (p : Path) (h : keysND m) :
    keysND (insertDup m d p) := by
  induction m with
  | nil => simp [insertDup, keysND]
  | cons g rest ih =>
    simp only [keysND, List.map_cons, List.nodup_cons] at h
    by_cases hg : g.1 = d
    · simp only [insertDup, if_pos hg, keysND, List.map_cons, List.nodup_cons]
      exact h
    · simp only [insertDup, if_neg hg, keysND, List.map_cons, List.nodup_cons]
      refine ⟨?_, ih h.2⟩
      rw [mem_keys_insertDup]
      rintro (hmem | heq)
      · exact h.1 hmem
      · exact hg heq

theorem mem_of_lookupGroup (m : DupMap) (d : Digest) (l : List Path)
    (h : lookupGroup m d = some l) : (d, l) ∈ m := by
  induction m with
  | nil => simp [lookupGroup] at h
  | cons g rest ih =>
    simp only [lookupGroup] at h
    split at h
    · next heq =>
      have h2 := Option.some.inj h
      exact List.mem_cons.mpr (Or.inl (by rw [← heq, ← h2]))
    · next hne => exact List.mem_cons_of_mem _ (ih h)

theorem lookupGroup_of_mem (m : DupMap) (hnd : keysND m) (d : Digest) (l : List Path)
    (h : (d, l) ∈ m) : lookupGroup m d = some l := by
  induction m with
  | nil => simp at h
  | cons g rest ih =>
    simp only [keysND, List.map_cons, List.nodup_cons] at hnd
    rcases List.mem_cons.mp h with heq | hmem
    · subst heq; simp [lookupGroup]
    · have hg : g.1 ≠ d := by
        intro hh
        exact hnd.1 (hh ▸ List.mem_map_of_mem Prod.fst hmem)
      simp only [lookupGroup, if_neg hg]
      exact ih hnd.2 hmem

theorem mem_filterDig (hash : Content → Digest) (fs : FS) (files : List Path)
    (d : Digest) (p : Path) :
    p ∈ filterDig hash fs files d ↔ p ∈ files ∧ sha1 hash fs p = some d := by
  simp [filterDig, List.mem_filter]

theorem filterDig_cons_pos (hash : Content → Digest) (fs : FS) (q : Path)
    (rest : List Path) (d : Digest) (h : sha1 hash fs q = some d) :
    filterDig hash fs (q :: rest) d = q :: filterDig hash fs rest d := by
  simp [filterDig, List.filter_cons, h]

theorem filterDig_cons_neg (hash : Content → Digest) (fs : FS) (q : Path)
    (rest : List Path) (d : Digest) (h : sha1 hash fs q ≠ some d) :
    filterDig hash fs (q :: rest) d = filterDig hash fs rest d := by
  simp [filterDig, List.filter_cons, h]

theorem populate_nil_ok (hash : Content → Digest) (fs : FS) (acc m : DupMap)
    (h : populateDuplicates hash fs [] acc = .ok m) : acc = m := by
  simpa [populateDuplicates] using h

theorem populate_cons_ok (hash : Content → Digest) (fs : FS) (q : Path)
    (rest : List Path) (acc m : DupMap)
    (h : populateDuplicates hash fs (q :: rest) acc = .ok m) :
    ∃ d, sha1 hash fs q = some d ∧
      populateDuplicates hash fs rest (insertDup acc d q) = .ok m := by
  rw [populateDuplicates] at h
  split at h
  · exact absurd h (by simp)
  · next m' hdet =>
    rw [detectDuplicate] at hdet
    split at hdet
    · exact absurd hdet (by simp)
    · next d hsha =>
      obtain rfl : insertDup acc d q = m' := Except.ok.inj hdet
      exact ⟨d, hsha, h⟩

theorem populate_readable (hash : Content → Digest) (fs : FS) (files : List Path)
    (acc m : DupMap) (h : populateDuplicates hash fs files acc = .ok m) :
    ∀ p ∈ files, ∃ d, sha1 hash fs p = some d := by
  induction files generalizing acc with
  | nil => intro p hp; simp at hp
  | cons q rest ih =>
    obtain ⟨dq, hsha, h'⟩ := populate_cons_ok hash fs q rest acc m h
    intro p hp
    rcases List.mem_cons.mp hp with rfl | hp'
    · exact ⟨dq, hsha⟩
    · exact ih _ h' p hp'

theorem populate_keysND (hash : Content → Digest) (fs : FS) (files : List Path)
    (acc m : DupMap) (h : populateDuplicates hash fs files acc = .ok m)
    (hacc : keysND acc) : keysND m := by
  induction files generalizing acc with
  | nil => exact populate_nil_ok hash fs acc m h ▸ hacc
  | cons q rest ih =>
    obtain ⟨dq, hsha, h'⟩ := populate_cons_ok hash fs q rest acc m h
    exact ih _ h' (keysND_insertDup acc dq q hacc)

theorem populate_lookupGroup (hash : Content → Digest) (fs : FS) (files : List Path)
    (acc m : DupMap) (h : populateDuplicates hash fs files acc = .ok m) (d : Digest) :
    lookupGroup m d = extendGroup (lookupGroup acc d) (filterDig hash fs files d) := by
  induction files generalizing acc with
  | nil =>
    obtain rfl := populate_nil_ok hash fs acc m h
    simp [filterDig, extendGroup_nil]
  | cons q rest ih =>
    obtain ⟨dq, hsha, h'⟩ := populate_cons_ok hash fs q rest acc m h
    rw [ih _ h', lookupGroup_insertDup]
    by_cases hd : d = dq
    · subst hd
      rw [if_pos rfl, filterDig_cons_pos hash fs q rest d hsha]
      cases hacc : lookupGroup acc d with
      | none => simp [extendGroup]
      | some l0 => simp [extendGroup]
    · have hne : sha1 hash fs q ≠ some d := by
        rw [hsha]
        exact fun hh => hd (Option.some.inj hh).symm
      rw [if_neg hd, filterDig_cons_neg hash fs q rest d hne]

/-- After the grouping pass (started from the empty map), every group of the
map is exactly the discovery-ordered list of files whose digest is the
group's key, and is nonempty. -/
theorem populate_group_eq (hash : Content → Digest) (fs : FS) (files : List Path)
    (m : DupMap) (hok : populateDuplicates hash fs files [] = .ok m)
    (g : Digest × List Path) (hg : g ∈ m) :
    g.2 = filterDig hash fs files g.1 ∧ g.2 ≠ [] := by
  have hnd : keysND m := populate_keysND hash fs files [] m hok (by simp [keysND])
  have h1 : lookupGroup m g.1 = some g.2 :=
    lookupGroup_of_mem m hnd g.1 g.2 (by rw [Prod.mk.eta]; exact hg)
  have h2 := populate_lookupGroup hash fs files [] m hok g.1
  rw [h1] at h2
  simp only [lookupGroup, extendGroup] at h2
  split at h2
  · exact absurd h2 (by simp)
  · next hne =>
    have h3 := Option.some.inj h2
    exact ⟨h3, by rw [h3]; exact hne⟩

theorem mem_removeUnique (m : DupMap) (g : Digest × List Path) :
    g ∈ removeUnique m ↔ g ∈ m ∧ g.2.length ≠ 1 := by
  induction m with
  | nil => simp [removeUnique]
  | cons a rest ih =>
    rw [removeUnique]
    split
    · next h =>
      rw [ih, List.mem_cons]
      constructor
      · rintro ⟨hm, hl⟩; exact ⟨Or.inr hm, hl⟩
      · rintro ⟨rfl | hm, hl⟩
        · exact absurd h hl
        · exact ⟨hm, hl⟩
    · next h =>
      rw [List.mem_cons, ih, List.mem_cons]
      constructor
      · rintro (rfl | ⟨hm, hl⟩)
        · exact ⟨Or.inl rfl, h⟩
        · exact ⟨Or.inr hm, hl⟩
      · rintro ⟨rfl | hm, hl⟩
        · exact Or.inl rfl
        · exact Or.inr ⟨hm, hl⟩

theorem find?_eq_head_of_filter {α : Type} (l : List α) (f : α → Bool) (x : α)
    (xs : List α) (h : l.filter f = x :: xs) : l.find? f = some x := by
  induction l with
  | nil => simp at h
  | cons a t ih =>
    by_cases hf : f a
    · rw [List.filter_cons_of_pos hf] at h
      rw [List.find?_cons_of_pos t hf]
      exact congrArg some (List.cons.inj h).1
    · rw [List.filter_cons_of_neg hf] at h
      rw [List.find?_cons_of_neg t hf]
      exact ih h

/-! ### Concrete demonstration data: a directory with `a.txt` and `b.txt`
holding identical bytes (spec Scenario A) -/

/-- A concrete injective-on-demand digest function for witnesses. -/
def hashRepr : Content → Digest := fun c => toString c

def fsAB : FS := [([ "a.txt" ], .file [104, 105]), ([ "b.txt" ], .file [104, 105])]

def filesAB : List Path := [[ "a.txt" ], [ "b.txt" ]]

def mAB : DupMap := [("[104, 105]", [[ "a.txt" ], [ "b.txt" ]])]

/-- C1: two scanned files land in a common group of the digest map iff their
contents hash to the same digest, and no file lies in two distinct groups
(so files of identical content meet in exactly one group and files of
distinct digests never share one). -/
theorem C1_grouping_iff_digest (hash : Content → Digest) (fs : FS) (files : List Path)
    (m : DupMap) (hok : populateDuplicates hash fs files [] = Except.ok m)
    (p q : Path) (hp : p ∈ files) (hq : q ∈ files) :
    ((∃ g, g ∈ m ∧ p ∈ g.2 ∧ q ∈ g.2) ↔ sha1 hash fs p = sha1 hash fs q) ∧
    (∀ g₁, g₁ ∈ m → ∀ g₂, g₂ ∈ m → p ∈ g₁.2 → p ∈ g₂.2 → g₁ = g₂) := by
  have hnd : keysND m := populate_keysND hash fs files [] m hok (by simp [keysND])
  constructor
  · constructor
    · rintro ⟨g, hg, hpg, hqg⟩
      have hge := (populate_group_eq hash fs files m hok g hg).1
      rw [hge] at hpg hqg
      have h1 := (mem_filterDig hash fs files g.1 p).mp hpg
      have h2 := (mem_filterDig hash fs files g.1 q).mp hqg
      rw [h1.2, h2.2]
    · intro hsha
      obtain ⟨dp, hdp⟩ := populate_readable hash fs files [] m hok p hp
      have hdq : sha1 hash fs q = some dp := by rw [← hsha]; exact hdp
      have hlk := populate_lookupGroup hash fs files [] m hok dp
      simp only [lookupGroup, extendGroup] at hlk
      have hpf : p ∈ filterDig hash fs files dp :=
        (mem_filterDig hash fs files dp p).mpr ⟨hp, hdp⟩
      have hqf : q ∈ filterDig hash fs files dp :=
        (mem_filterDig hash fs files dp q).mpr ⟨hq, hdq⟩
      have hne : filterDig hash fs files dp ≠ [] := fun hh => by simp [hh] at hpf
      rw [if_neg hne] at hlk
      exact ⟨(dp, filterDig hash fs files dp), mem_of_lookupGroup m dp _ hlk, hpf, hqf⟩
  · intro g₁ hg₁ g₂ hg₂ hp1 hp2
    have he1 := (populate_group_eq hash fs files m hok g₁ hg₁).1
    have he2 := (populate_group_eq hash fs files m hok g₂ hg₂).1
    have hd1 := ((mem_filterDig hash fs files g₁.1 p).mp (he1 ▸ hp1)).2
    have hd2 := ((mem_filterDig hash fs files g₂.1 p).mp (he2 ▸ hp2)).2
    have hkey : g₁.1 = g₂.1 := Option.some.inj (by rw [← hd1, ← hd2])
    have hl1 := lookupGroup_of_mem m hnd g₁.1 g₁.2 (by rw [Prod.mk.eta]; exact hg₁)
    have hl2 := lookupGroup_of_mem m hnd g₂.1 g₂.2 (by rw [Prod.mk.eta]; exact hg₂)
    rw [hkey] at hl1
    have hv : g₁.2 = g₂.2 := Option.some.inj (by rw [← hl1, ← hl2])
    exact Prod.ext_iff.mpr ⟨hkey, hv⟩

/-- Witness for C1 at the two identical files `a.txt`, `b.txt`. -/
theorem C1_grouping_iff_digest_witness :
    ((∃ g, g ∈ mAB ∧ [ "a.txt" ] ∈ g.2 ∧ [ "b.txt" ] ∈ g.2) ↔
      sha1 hashRepr fsAB [ "a.txt" ] = sha1 hashRepr fsAB [ "b.txt" ]) ∧
    (∀ g₁, g₁ ∈ mAB → ∀ g₂, g₂ ∈ mAB →
      [ "a.txt" ] ∈ g₁.2 → [ "a.txt" ] ∈ g₂.2 → g₁ = g₂) :=
  C1_grouping_iff_digest hashRepr fsAB filesAB mAB (by rfl)
    [ "a.txt" ] [ "b.txt" ] (by decide) (by decide)

/-- One outcome of the source's concurrent grouping pass
(`Promise.all(files.map(f => this.detectDuplicate(f)))`): each task pushes
into the shared map synchronously after its `fs.readFileAsync` completes, so
an execution is serialized by read-completion order — an arbitrary
permutation of the discovery list, which the runtime does not guarantee to
equal the dispatch (discovery) order. -/
def populateResult (hash : Content → Digest) (fs : FS) (files : List Path)
    (m : DupMap) : Prop :=
  ∃ order, List.Perm order files ∧ populateDuplicates hash fs order [] = Except.ok m

/-- The grouping outcome in which `b.txt`'s read completed before `a.txt`'s. -/
def mBA : DupMap := [("[104, 105]", [[ "b.txt" ], [ "a.txt" ]])]

/-- C3 counterexample: the same discovery order `[a.txt, b.txt]` admits two
executions of the concurrent hashing pass — reads completing in dispatch
order, or `b.txt`'s read completing first — that produce groups with
different heads; in the second the canonical member is `b.txt`, not the
discovery-first member `a.txt` (which is the first file of that digest in
discovery order). So canonical selection is not a function of discovery
order, and two runs with the same discovery order need not agree. -/
theorem C3_canonical_counterexample :
    populateResult hashRepr fsAB filesAB mAB ∧
    populateResult hashRepr fsAB filesAB mBA ∧
    mAB ≠ mBA ∧
    (∃ g, g ∈ removeUnique mBA ∧ ∃ cs, g.2 = [ "b.txt" ] :: cs) ∧
    filesAB.find? (fun p => decide (sha1 hashRepr fsAB p = some "[104, 105]")) =
      some [ "a.txt" ] :=
  ⟨⟨filesAB, List.Perm.refl filesAB, rfl⟩,
   ⟨[[ "b.txt" ], [ "a.txt" ]], List.Perm.swap [ "a.txt" ] [ "b.txt" ] [], rfl⟩,
   by decide,
   ⟨("[104, 105]", [[ "b.txt" ], [ "a.txt" ]]), by decide, [[ "a.txt" ]], rfl⟩,
   rfl⟩

/-- C3 amended: for every admissible completion order of the concurrent
hashing pass (any permutation of the discovery list), the canonical member
of every final duplicate group — the head that `printDuplicates` and
`createSymlinksForDuplicate` destructure as `src` — is the member first in
that completion (map-insertion) order with the group's digest. The policy is
positional and first-inserted-wins, not content- or path-based; it is
deterministic once the completion order is fixed, and coincides with
discovery order exactly when reads complete in dispatch order. -/
theorem C3_canonical_first_in_completion_order (hash : Content → Digest) (fs : FS)
    (files order : List Path) (m : DupMap)
    (hperm : List.Perm order files)
    (hok : populateDuplicates hash fs order [] = Except.ok m)
    (g : Digest × List Path) (hg : g ∈ removeUnique m) :
    ∃ c cs, g.2 = c :: cs ∧
      order.find? (fun p => decide (sha1 hash fs p = some g.1)) = some c := by
  have hm : g ∈ m := ((mem_removeUnique m g).mp hg).1
  obtain ⟨hge, hne⟩ := populate_group_eq hash fs order m hok g hm
  cases hv : g.2 with
  | nil => exact absurd hv hne
  | cons c cs =>
    refine ⟨c, cs, rfl, ?_⟩
    apply find?_eq_head_of_filter order _ c cs
    rw [show order.filter (fun p => decide (sha1 hash fs p = some g.1)) =
        filterDig hash fs order g.1 from rfl, ← hge, hv]

/-- Witness for the amended C3 at the completion order in which `b.txt`'s
read finished first: the canonical member of the single group is `b.txt`,
the first in that completion order. -/
theorem C3_canonical_first_in_completion_order_witness :
    ∃ c cs, ("[104, 105]", [[ "b.txt" ], [ "a.txt" ]]).2 = c :: cs ∧
      [[ "b.txt" ], [ "a.txt" ]].find?
        (fun p => decide (sha1 hashRepr fsAB p =
          some ("[104, 105]", [[ "b.txt" ], [ "a.txt" ]]).1)) = some c :=
  C3_canonical_first_in_completion_order hashRepr fsAB filesAB
    [[ "b.txt" ], [ "a.txt" ]] mBA (List.Perm.swap [ "a.txt" ] [ "b.txt" ] [])
    (by rfl) ("[104, 105]", [[ "b.txt" ], [ "a.txt" ]]) (by decide)

/-- C5: `removeUnique` deletes exactly the groups of size 1 (membership in
the final set is membership in the grouped map plus size ≠ 1), and every
surviving group — all that the dry-run printer or the symlink step ever
see — has at least 2 members. -/
theorem C5_removeUnique_filters_singletons (hash : Content → Digest) (fs : FS)
    (files : List Path) (m : DupMap)
    (hok : populateDuplicates hash fs files [] = Except.ok m) :
    (∀ g, g ∈ removeUnique m ↔ (g ∈ m ∧ g.2.length ≠ 1)) ∧
    (∀ g, g ∈ removeUnique m → 2 ≤ g.2.length) := by
  refine ⟨fun g => mem_removeUnique m g, fun g hg => ?_⟩
  have hm := (mem_removeUnique m g).mp hg
  have hne := (populate_group_eq hash fs files m hok g hm.1).2
  have hlen : g.2.length ≠ 0 := fun hh => hne (List.length_eq_zero.mp hh)
  have hlen1 := hm.2
  omega

/-- Witness for C5 at the two identical files. -/
theorem C5_removeUnique_filters_singletons_witness :
    (∀ g, g ∈ removeUnique mAB ↔ (g ∈ mAB ∧ g.2.length ≠ 1)) ∧
    (∀ g, g ∈ removeUnique mAB → 2 ≤ g.2.length) :=
  C5_removeUnique_filters_singletons hashRepr fsAB filesAB mAB (by rfl)

/-- C2 (code behavior at the claim's own scenario): for a directory with
exactly `a.txt` and `b.txt` of identical content, the summary prints
"Matched 2 files", "Found 1 unique files", and "Found 1 files with 0 copies":
the copies figure is `totalFiles - uniqueFiles - duplicatedSourceFiles`
= 2 - 1 - 1 = 0, where `uniqueFiles` is the distinct-digest count taken
before `removeUnique` (so it already counts the duplicate group); the actual
number of redundant copies, matched files minus distinct digests, is
`filesAB.length - mAB.length` = 1, not 0. -/
theorem C2_summary_copies_miscount :
    (run hashRepr false filesAB ⟨fsAB, []⟩).lines =
      ["Scanning...", "Matched 2 files", "Looking for duplicates...",
       "Found 1 unique files", "Found 1 files with 0 copies",
       "Creating symlinks...", "Deduplication finished"] ∧
    filesAB.length - mAB.length = 1 := by
  constructor
  · rfl
  · rfl

/-- The `console.log(a, b, c)` line is the three strings joined by single
spaces. -/
theorem consoleLog_three (a b c : String) :
    consoleLog [a, b, c] = a ++ " " ++ b ++ " " ++ c := by
  simp [consoleLog, String.intercalate, String.intercalate.go]

/-- A dry-run report line spelled out: the separator between the copy's path
and the relative source path is "  -> " — two spaces before the arrow, since
the source passes the literal `' ->'` (with a leading space of its own) as a
`console.log` argument. -/
theorem dupLine_eq (src d : Path) :
    dupLine src d =
      pathToString d ++ "  -> " ++ pathToString (relSegs (dirname d) src) := by
  rw [dupLine, consoleLog_three]
  apply String.ext
  simp [String.data_append]

/-- C8 counterexample: for two identical same-directory files `a.txt` and
`b.txt`, the dry-run printer emits exactly "b.txt  -> a.txt" (two spaces
before the arrow); the claimed line "b.txt -> a.txt" with separator " -> "
is never printed. -/
theorem C8_separator_counterexample :
    printDuplicates mAB = ["b.txt  -> a.txt"] ∧
    "b.txt -> a.txt" ∉ printDuplicates mAB := by
  constructor
  · rfl
  · decide

/-- C8 amended: in dry-run mode the program emits exactly one line per
non-canonical duplicate copy, and each line has the form
`<copy-path>  -> <relative-path-to-source>` — copy path, separator "  -> "
(two spaces before the arrow), and the canonical file's path relative to the
copy's directory. -/
theorem C8_dry_run_line_format (m : DupMap) :
    (printDuplicates m).length = (m.map (fun g => g.2.length - 1)).sum ∧
    ∀ line ∈ printDuplicates m, ∃ g, g ∈ m ∧ ∃ src dupes, g.2 = src :: dupes ∧
      ∃ d ∈ dupes,
        line = pathToString d ++ "  -> " ++ pathToString (relSegs (dirname d) src) := by
  induction m with
  | nil => simp [printDuplicates]
  | cons g rest ih =>
    have hstep : printDuplicates (g :: rest) =
        (match g.2 with
         | [] => []
         | src :: dupes => dupes.map (dupLine src)) ++ printDuplicates rest := by
      simp [printDuplicates]
    constructor
    · rw [hstep]
      cases hv : g.2 with
      | nil => simp [hv, ih.1]
      | cons src dupes => simp [hv, ih.1]
    · intro line hline
      rw [hstep, List.mem_append] at hline
      rcases hline with hhead | htail
      · cases hv : g.2 with
        | nil => rw [hv] at hhead; simp at hhead
        | cons src dupes =>
          rw [hv] at hhead
          obtain ⟨d, hd, hld⟩ := List.mem_map.mp hhead
          exact ⟨g, List.mem_cons_self g rest, src, dupes, hv, d, hd,
            by rw [← hld, dupLine_eq]⟩
      · obtain ⟨g', hg', src, dupes, hv, d, hd, hld⟩ := ih.2 line htail
        exact ⟨g', List.mem_cons_of_mem g hg', src, dupes, hv, d, hd, hld⟩

/-- Witness for the amended C8 at the two identical files. -/
theorem C8_dry_run_line_format_witness :
    (printDuplicates mAB).length = (mAB.map (fun g => g.2.length - 1)).sum ∧
    ∀ line ∈ printDuplicates mAB, ∃ g, g ∈ mAB ∧ ∃ src dupes, g.2 = src :: dupes ∧
      ∃ d ∈ dupes,
        line = pathToString d ++ "  -> " ++ pathToString (relSegs (dirname d) src) :=
  C8_dry_run_line_format mAB

/-- The wildcard pattern `*` matches every filename. -/
theorem globMatch_star_all (s : List Char) : globMatch ['*'] s = true := by
  have h1 : globMatch ['*'] s = s.tails.any (fun t => globMatch [] t) := rfl
  rw [h1, List.any_eq_true]
  exact ⟨[], (List.mem_tails [] s).mpr List.nil_suffix, rfl⟩

/-- C9: with an empty pattern set the scanner substitutes the single wildcard
pattern "*", so every file (any filename) is matched; in general a file is
matched exactly when its filename satisfies at least one effective pattern
(the `+(p1|p2|...)` alternation of the glob filter). -/
theorem C9_default_wildcard_and_alternation (patterns : List String) (p : Path)
    (name : Seg) (hname : p.getLast? = some name) :
    (patterns = [] → scanMatches patterns p = true) ∧
    (scanMatches patterns p = true ↔
      ∃ pat ∈ effectivePatterns patterns, globMatch pat.data name.data = true) := by
  constructor
  · rintro rfl
    rw [scanMatches, hname]
    simp only [effectivePatterns, if_pos rfl, List.any_eq_true]
    exact ⟨"*", List.mem_singleton.mpr rfl, globMatch_star_all name.data⟩
  · rw [scanMatches, hname]
    simp [List.any_eq_true]

/-- Witness for C9: with no patterns, the file `pic.png` is matched; the
match characterization holds with the effective pattern set `["*"]`. -/
theorem C9_default_wildcard_and_alternation_witness :
    (([] : List String) = [] → scanMatches [] [ "pic.png" ] = true) ∧
    (scanMatches [] [ "pic.png" ] = true ↔
      ∃ pat ∈ effectivePatterns [], globMatch pat.data "pic.png".data = true) :=
  C9_default_wildcard_and_alternation [] [ "pic.png" ] "pic.png" (by rfl)

/-! ### Effects of the primitive filesystem operations -/

theorem unlinkOp_error_fs (p : Path) (s : St) (e : String) (s' : St)
    (h : unlinkOp p s = (.error e, s')) : s'.fs = s.fs := by
  simp only [unlinkOp, popFault] at h
  split at h
  · rw [Prod.mk.injEq] at h; rw [← h.2]
  · split at h
    · rw [Prod.mk.injEq] at h; rw [← h.2]
    · rw [Prod.mk.injEq] at h; exact absurd h.1 (by simp)

theorem unlinkOp_ok_fs (p : Path) (s : St) (u : Unit) (s' : St)
    (h : unlinkOp p s = (.ok u, s')) : s'.fs = removeFS s.fs p := by
  simp only [unlinkOp, popFault] at h
  split at h
  · rw [Prod.mk.injEq] at h; exact absurd h.1 (by simp)
  · split at h
    · rw [Prod.mk.injEq] at h; exact absurd h.1 (by simp)
    · rw [Prod.mk.injEq] at h; rw [← h.2]

theorem symlinkOp_error_fs (t p : Path) (s : St) (e : String) (s' : St)
    (h : symlinkOp t p s = (.error e, s')) : s'.fs = s.fs := by
  simp only [symlinkOp, popFault] at h
  split at h
  · rw [Prod.mk.injEq] at h; rw [← h.2]
  · split at h
    · rw [Prod.mk.injEq] at h; rw [← h.2]
    · rw [Prod.mk.injEq] at h; exact absurd h.1 (by simp)

theorem symlinkOp_ok (t p : Path) (s : St) (u : Unit) (s' : St)
    (h : symlinkOp t p s = (.ok u, s')) :
    s'.fs = (p, Entry.link t) :: s.fs := by
  simp only [symlinkOp, popFault] at h
  split at h
  · rw [Prod.mk.injEq] at h; exact absurd h.1 (by simp)
  · split at h
    · rw [Prod.mk.injEq] at h; exact absurd h.1 (by simp)
    · rw [Prod.mk.injEq] at h; rw [← h.2]

/-! ### Frame and postcondition lemmas for per-group replacement -/

/-- Replacing a group's copies never touches a path outside the copy list
(regardless of success or failure). -/
theorem linkDupes_frame (src : Path) (dupes : List Path) (s : St) (q : Path)
    (hq : q ∉ dupes) :
    lookupFS (linkDupes src dupes s).2.fs q = lookupFS s.fs q := by
  induction dupes generalizing s with
  | nil => rfl
  | cons d rest ih =>
    have hqd : q ≠ d := fun hh => hq (by rw [hh]; exact List.mem_cons_self d rest)
    have hqr : q ∉ rest := fun hh => hq (List.mem_cons_of_mem d hh)
    rw [linkDupes]
    cases h1 : unlinkOp d s with
    | mk r1 s1 =>
      cases r1 with
      | error e =>
        dsimp only
        rw [unlinkOp_error_fs d s e s1 h1]
      | ok u =>
        have hfs1 : s1.fs = removeFS s.fs d := unlinkOp_ok_fs d s u s1 h1
        dsimp only
        cases h2 : symlinkOp (relSegs (dirname d) src) d s1 with
        | mk r2 s2 =>
          cases r2 with
          | error e2 =>
            dsimp only
            rw [symlinkOp_error_fs _ d s1 e2 s2 h2, hfs1,
              lookupFS_removeFS_ne s.fs d q hqd]
          | ok u2 =>
            have hfs2 := symlinkOp_ok _ d s1 u2 s2 h2
            dsimp only
            rw [ih s2 hqr, hfs2]
            show (if d = q then some _ else lookupFS s1.fs q) = _
            rw [if_neg (Ne.symm hqd), hfs1, lookupFS_removeFS_ne s.fs d q hqd]

/-- On success, every copy of the group ends up as a symlink whose target is
the source path relative to the copy's directory. -/
theorem linkDupes_ok_links (src : Path) (dupes : List Path) (s : St) (u : Unit)
    (s' : St) (hok : linkDupes src dupes s = (.ok u, s'))
    (hnd : dupes.Nodup) (d : Path) (hd : d ∈ dupes) :
    lookupFS s'.fs d = some (.link (relSegs (dirname d) src)) := by
  induction dupes generalizing s with
  | nil => simp at hd
  | cons d0 rest ih =>
    rw [linkDupes] at hok
    cases h1 : unlinkOp d0 s with
    | mk r1 s1 =>
      rw [h1] at hok
      cases r1 with
      | error e => simp at hok
      | ok u1 =>
        dsimp only at hok
        cases h2 : symlinkOp (relSegs (dirname d0) src) d0 s1 with
        | mk r2 s2 =>
          rw [h2] at hok
          cases r2 with
          | error e2 => simp at hok
          | ok u2 =>
            dsimp only at hok
            have hfs2 := symlinkOp_ok _ d0 s1 u2 s2 h2
            rcases List.mem_cons.mp hd with rfl | hdr
            · have hnotin : d ∉ rest := (List.nodup_cons.mp hnd).1
              have hframe := linkDupes_frame src rest s2 d hnotin
              rw [hok] at hframe
              rw [hframe, hfs2]
              show (if d = d then some _ else lookupFS s1.fs d) = _
              rw [if_pos rfl]
            · exact ih s2 hok (List.nodup_cons.mp hnd).2 hdr

theorem createSymlinksForDuplicate_frame (g : List Path) (s : St) (q : Path)
    (hq : q ∉ g.tail) :
    lookupFS (createSymlinksForDuplicate g s).2.fs q = lookupFS s.fs q := by
  cases g with
  | nil => rfl
  | cons src dupes => exact linkDupes_frame src dupes s q hq

theorem createSymlinks_frame (groups : List (List Path)) (s : St) (q : Path)
    (hq : ∀ g ∈ groups, q ∉ g.tail) :
    lookupFS (createSymlinks groups s).2.fs q = lookupFS s.fs q := by
  induction groups generalizing s with
  | nil => rfl
  | cons g rest ih =>
    rw [createSymlinks]
    cases h1 : createSymlinksForDuplicate g s with
    | mk r1 s1 =>
      have hfs1 : lookupFS s1.fs q = lookupFS s.fs q := by
        have hh := createSymlinksForDuplicate_frame g s q (hq g (List.mem_cons_self g rest))
        rw [h1] at hh
        exact hh
      cases r1 with
      | error e => dsimp only; exact hfs1
      | ok u =>
        dsimp only
        rw [ih s1 (fun g' hg' => hq g' (List.mem_cons_of_mem g hg')), hfs1]

/-- On a fully successful `createSymlinks` over pairwise-distinct paths, every
non-canonical member of every group carries the relative symlink to its
group's source, and every source path is untouched. -/
theorem createSymlinks_ok_links (groups : List (List Path)) (s : St) (u : Unit)
    (s' : St) (hok : createSymlinks groups s = (.ok u, s'))
    (hnd : groups.flatten.Nodup)
    (g : List Path) (hg : g ∈ groups) (src : Path) (dupes : List Path)
    (hgv : g = src :: dupes) (d : Path) (hd : d ∈ dupes) :
    lookupFS s'.fs d = some (.link (relSegs (dirname d) src)) ∧
    lookupFS s'.fs src = lookupFS s.fs src := by
  induction groups generalizing s with
  | nil => simp at hg
  | cons g0 rest ih =>
    rw [createSymlinks] at hok
    cases h1 : createSymlinksForDuplicate g0 s with
    | mk r1 s1 =>
      rw [h1] at hok
      cases r1 with
      | error e => simp at hok
      | ok u1 =>
        dsimp only at hok
        rw [List.flatten_cons, List.nodup_append] at hnd
        obtain ⟨hnd0, hndr, hdisj⟩ := hnd
        rcases List.mem_cons.mp hg with rfl | hgr
        · -- the target group is processed first, from state `s`
          rw [hgv] at h1 hnd0
          have h1' : linkDupes src dupes s = (.ok u1, s1) := h1
          have hsrc_nd : src ∉ dupes := (List.nodup_cons.mp hnd0).1
          have hdup_nd : dupes.Nodup := (List.nodup_cons.mp hnd0).2
          have hd_in_g : d ∈ g := by rw [hgv]; exact List.mem_cons_of_mem src hd
          have hsrc_in_g : src ∈ g := by rw [hgv]; exact List.mem_cons_self src dupes
          constructor
          · have hlink := linkDupes_ok_links src dupes s u1 s1 h1' hdup_nd d hd
            have hframe := createSymlinks_frame rest s1 d
              (fun g' hg' hmem =>
                hdisj hd_in_g (List.mem_flatten.mpr ⟨g', hg', List.tail_subset g' hmem⟩))
            rw [hok] at hframe
            rw [hframe, hlink]
          · have hpres : lookupFS s1.fs src = lookupFS s.fs src := by
              have hh := linkDupes_frame src dupes s src hsrc_nd
              rw [h1'] at hh
              exact hh
            have hframe := createSymlinks_frame rest s1 src
              (fun g' hg' hmem =>
                hdisj hsrc_in_g (List.mem_flatten.mpr ⟨g', hg', List.tail_subset g' hmem⟩))
            rw [hok] at hframe
            rw [hframe, hpres]
        · -- the target group lies in the remaining groups, processed from `s1`
          have hres := ih s1 hok hndr hgr
          have hd_in_flat : d ∈ rest.flatten :=
            List.mem_flatten.mpr ⟨g, hgr, by rw [hgv]; exact List.mem_cons_of_mem src hd⟩
          have hsrc_in_flat : src ∈ rest.flatten :=
            List.mem_flatten.mpr ⟨g, hgr, by rw [hgv]; exact List.mem_cons_self src dupes⟩
          have hpres1 : lookupFS s1.fs src = lookupFS s.fs src := by
            have hh := createSymlinksForDuplicate_frame g0 s src
              (fun hmem => hdisj (List.tail_subset g0 hmem) hsrc_in_flat)
            rw [h1] at hh
            exact hh
          exact ⟨hres.1, hres.2.trans hpres1⟩

/-- A six-file filesystem with three duplicate groups; the fault schedule
makes the fourth operation — the symlink for `d.txt`, the copy of the second
group — fail after its unlink succeeded. -/
def fs6 : FS :=
  [([ "a.txt" ], .file [104]), ([ "b.txt" ], .file [104]),
   ([ "c.txt" ], .file [105]), ([ "d.txt" ], .file [105]),
   ([ "e.txt" ], .file [106]), ([ "f.txt" ], .file [106])]

def st7 : St := ⟨fs6, [false, false, false, true]⟩

def groups7 : List (List Path) :=
  [[[ "a.txt" ], [ "b.txt" ]], [[ "c.txt" ], [ "d.txt" ]], [[ "e.txt" ], [ "f.txt" ]]]

/-- C7: the delete-then-link replacement is not atomic: in this execution the
unlink of `d.txt` succeeds but the following symlink creation fails, the run
ends in an error, `d.txt` ends with neither a file nor a link, the completed
replacement of `b.txt` in the earlier group is not rolled back, and the third
group is aborted with `f.txt` untouched. -/
theorem C7_delete_then_link_not_atomic :
    (createSymlinks groups7 st7).1 = .error "EIO: symlink" ∧
    lookupFS (createSymlinks groups7 st7).2.fs [ "d.txt" ] = none ∧
    lookupFS (createSymlinks groups7 st7).2.fs [ "b.txt" ] =
      some (.link [ "a.txt" ]) ∧
    lookupFS (createSymlinks groups7 st7).2.fs [ "f.txt" ] =
      lookupFS fs6 [ "f.txt" ] :=
  ⟨rfl, rfl, rfl, rfl⟩

theorem removeUnique_sublist (m : DupMap) : List.Sublist (removeUnique m) m := by
  induction m with
  | nil => simp [removeUnique]
  | cons g rest ih =>
    rw [removeUnique]
    split
    · exact ih.cons g
    · exact ih.cons₂ g

/-- With pairwise-distinct scanned paths, the members of the final duplicate
groups are pairwise distinct overall: each group is a filter of the scanned
list, and groups of distinct digests are disjoint. -/
theorem dupGroups_flatten_nodup (hash : Content → Digest) (fs : FS)
    (files : List Path) (m : DupMap)
    (hok : populateDuplicates hash fs files [] = Except.ok m)
    (hnd : files.Nodup) :
    ((removeUnique m).map Prod.snd).flatten.Nodup := by
  have hsub : List.Sublist (removeUnique m) m := removeUnique_sublist m
  have hkeys : keysND m := populate_keysND hash fs files [] m hok (by simp [keysND])
  have hkeys' : ((removeUnique m).map Prod.fst).Nodup :=
    List.Nodup.sublist (List.Sublist.map Prod.fst hsub) hkeys
  have hpw : (removeUnique m).Pairwise (fun a b => a.1 ≠ b.1) := by
    rw [List.Nodup, List.pairwise_map] at hkeys'
    exact hkeys'
  have hdisj : (removeUnique m).Pairwise (fun a b => List.Disjoint a.2 b.2) := by
    refine List.Pairwise.imp_of_mem (fun {a b} ha hb hr => ?_) hpw
    intro x hxa hxb
    have hga := (populate_group_eq hash fs files m hok a
      (((mem_removeUnique m a).mp ha).1)).1
    have hgb := (populate_group_eq hash fs files m hok b
      (((mem_removeUnique m b).mp hb).1)).1
    have h1 := ((mem_filterDig hash fs files a.1 x).mp (hga ▸ hxa)).2
    have h2 := ((mem_filterDig hash fs files b.1 x).mp (hgb ▸ hxb)).2
    exact hr (Option.some.inj (by rw [← h1, ← h2]))
  refine List.nodup_flatten.mpr ⟨?_, ?_⟩
  · intro l hl
    obtain ⟨g, hg, rfl⟩ := List.mem_map.mp hl
    have hge := (populate_group_eq hash fs files m hok g
      (((mem_removeUnique m g).mp hg).1)).1
    rw [hge]
    exact List.Nodup.filter _ hnd
  · rw [List.pairwise_map]
    exact hdisj

/-- In non-dry-run mode with at least one duplicate group, a run that ends
without error is exactly a successful `createSymlinks` over the groups, and
the run's final state is the one `createSymlinks` produced. -/
theorem run_nondry_spec (hash : Content → Digest) (files : List Path) (s : St)
    (m : DupMap) (hm : populateDuplicates hash s.fs files [] = Except.ok m)
    (hne : ¬((removeUnique m).length = 0))
    (herr : (run hash false files s).err = none) :
    createSymlinks ((removeUnique m).map Prod.snd) s =
      (.ok (), (run hash false files s).state) := by
  cases hcs : createSymlinks ((removeUnique m).map Prod.snd) s with
  | mk r s' =>
    cases r with
    | ok u =>
      have hrun : (run hash false files s).state = s' := by
        unfold run
        rw [hm]
        dsimp only
        rw [if_neg Bool.false_ne_true, if_neg hne, hcs]
      cases u
      rw [hrun]
    | error e =>
      have hrun : (run hash false files s).err = some e := by
        unfold run
        rw [hm]
        dsimp only
        rw [if_neg Bool.false_ne_true, if_neg hne, hcs]
      rw [hrun] at herr
      exact absurd herr (by simp)

/-- C4: in non-dry-run mode, after a run that completes without error, every
non-canonical member `d` of every duplicate group carries a symbolic link
whose target is the canonical path `src` relative to `d`'s directory, and
reading through that link yields exactly the canonical file's original
content. -/
theorem C4_replacement_roundtrip (hash : Content → Digest) (files : List Path)
    (s : St) (hfnd : files.Nodup)
    (hclean : ∀ p ∈ files, ∀ seg ∈ p, seg ≠ "..")
    (hok : (run hash false files s).err = none)
    (m : DupMap) (hm : populateDuplicates hash s.fs files [] = Except.ok m)
    (g : Digest × List Path) (hg : g ∈ removeUnique m)
    (src : Path) (dupes : List Path) (hgs : g.2 = src :: dupes)
    (d : Path) (hd : d ∈ dupes) :
    lookupFS (run hash false files s).state.fs d =
      some (.link (relSegs (dirname d) src)) ∧
    readResolved (run hash false files s).state.fs d = contentAt s.fs src := by
  have hne : ¬((removeUnique m).length = 0) := by
    intro hh
    rw [List.length_eq_zero] at hh
    rw [hh] at hg
    simp at hg
  have hcs := run_nondry_spec hash files s m hm hne hok
  have hflat := dupGroups_flatten_nodup hash s.fs files m hm hfnd
  have hgmem : g.2 ∈ (removeUnique m).map Prod.snd := List.mem_map_of_mem Prod.snd hg
  obtain ⟨hlink, hsrc⟩ := createSymlinks_ok_links ((removeUnique m).map Prod.snd) s ()
    (run hash false files s).state hcs hflat g.2 hgmem src dupes hgs d hd
  refine ⟨hlink, ?_⟩
  have hsrc_in_files : src ∈ files := by
    have hge := (populate_group_eq hash s.fs files m hm g
      (((mem_removeUnique m g).mp hg).1)).1
    have hsg : src ∈ g.2 := by rw [hgs]; exact List.mem_cons_self src dupes
    rw [hge] at hsg
    exact ((mem_filterDig hash s.fs files g.1 src).mp hsg).1
  have hres : readResolved (run hash false files s).state.fs d =
      contentAt (run hash false files s).state.fs
        (normStack (dirname d) (relSegs (dirname d) src)) := by
    unfold readResolved
    rw [hlink]
  rw [hres, normStack_relSegs (dirname d) src (hclean src hsrc_in_files)]
  unfold contentAt
  rw [hsrc]

/-- Witness for C4 at the two identical files: after the run, `b.txt` is a
link to `a.txt` and reads back the canonical content. -/
theorem C4_replacement_roundtrip_witness :
    lookupFS (run hashRepr false filesAB ⟨fsAB, []⟩).state.fs [ "b.txt" ] =
      some (.link (relSegs (dirname [ "b.txt" ]) [ "a.txt" ])) ∧
    readResolved (run hashRepr false filesAB ⟨fsAB, []⟩).state.fs [ "b.txt" ] =
      contentAt fsAB [ "a.txt" ] :=
  C4_replacement_roundtrip hashRepr filesAB ⟨fsAB, []⟩ (by decide) (by decide)
    (by rfl) mAB (by rfl) ("[104, 105]", [[ "a.txt" ], [ "b.txt" ]]) (by decide)
    [ "a.txt" ] [[ "b.txt" ]] (by rfl) [ "b.txt" ] (by decide)

/-- C6: a dry run leaves the state (filesystem and fault schedule) exactly as
it was, and the same holds with the flag off when there are zero duplicate
groups, in which case the "nothing to do" acknowledgment is printed. -/
theorem C6_dry_run_no_mutation (hash : Content → Digest) (files : List Path)
    (s : St) (dryRun : Bool)
    (h : dryRun = true ∨
      ∀ m, populateDuplicates hash s.fs files [] = Except.ok m → removeUnique m = []) :
    (run hash dryRun files s).state = s ∧
    (dryRun = false → ∀ m, populateDuplicates hash s.fs files [] = Except.ok m →
      removeUnique m = [] →
      "Nothing to dedupe ¯\\_(ツ)_/¯" ∈ (run hash dryRun files s).lines) := by
  cases hp : populateDuplicates hash s.fs files [] with
  | error e =>
    constructor
    · unfold run
      rw [hp]
    · intro _ m hm
      exact absurd hm (by simp)
  | ok m =>
    cases dryRun with
    | true =>
      constructor
      · unfold run
        rw [hp]
        rfl
      · intro hh
        exact absurd hh (by simp)
    | false =>
      have hru : removeUnique m = [] := by
        rcases h with hh | hh
        · exact absurd hh (by simp)
        · exact hh m hp
      have hz : (removeUnique m).length = 0 := by rw [hru]; rfl
      constructor
      · unfold run
        rw [hp]
        dsimp only
        rw [if_neg Bool.false_ne_true, if_pos hz]
      · intro _ m' hm'
        obtain rfl : m = m' := Except.ok.inj hm'
        intro _
        unfold run
        rw [hp]
        dsimp only
        rw [if_neg Bool.false_ne_true, if_pos hz]
        simp

/-- Witness for C6: a dry run over the two identical files changes nothing. -/
theorem C6_dry_run_no_mutation_witness :
    (run hashRepr true filesAB ⟨fsAB, []⟩).state = ⟨fsAB, []⟩ ∧
    (true = false → ∀ m, populateDuplicates hashRepr fsAB filesAB [] = Except.ok m →
      removeUnique m = [] →
      "Nothing to dedupe ¯\\_(ツ)_/¯" ∈ (run hashRepr true filesAB ⟨fsAB, []⟩).lines) :=
  C6_dry_run_no_mutation hashRepr filesAB ⟨fsAB, []⟩ true (Or.inl rfl)

end FsDedupe
